import Mathlib

/-!
# Verification of the brainfuck-rs-quick translator/optimizer/executor pipeline

Shallow embedding of the interpreter in `src/bf.rs` (memory model, Op tree,
translator with inline coalescing and the zero-loop optimization, recursive
executor) and of the second-generation IR in `src/bf/op.rs` together with the
add-and-zero optimizer in `src/bf/optimize/routine/add_and_zero.rs`.

Machine integers are modelled as `Nat`/`Int` with explicit wrapping:
cell arithmetic is `% 256` (release-mode wrapping `u8` semantics), the
cursor is a `usize` wrapping-add (`% 2^64`).  Indexing panics (out-of-bounds
cell access) and the `Input` panic of `src/bf.rs` are modelled by `Option`.
Execution is given fuel so that every function is total and computable; all
statements are fuel-monotone or quantified over sufficient fuel.
-/

/-- The size of the memory (`MEM_SIZE` in `src/bf.rs`). -/
def MEM_SIZE : Nat := 30000

/-- Modulus of `usize` arithmetic (64-bit target). -/
def USIZE : Nat := 2 ^ 64

/-- The memory bank of a brainfuck program (`Memory` in `src/bf.rs`):
a fixed array of `u8` cells and a cursor.  The array is modelled as a total
function; every access the source performs through `self.data[self.pointer]`
is bounds-checked here, returning `none` where Rust panics. -/
structure Memory where
  data : Nat → Nat
  pointer : Nat

/-- `Memory::new`: all cells zero, cursor at 0. -/
def Memory.new : Memory := ⟨fun _ => 0, 0⟩

/-- `Memory::seek`: `self.pointer += amount as usize` — an unchecked
wrapping `usize` add (the bounds check in the source is commented out). -/
def Memory.seek (m : Memory) (amount : Int) : Memory :=
  { m with pointer := (m.pointer + (amount % (USIZE : Int)).toNat) % USIZE }

/-- `Memory::inc`: `self.data[self.pointer] += amount as u8`.
The cast truncates mod 256 and the addition wraps; the indexing panics when
the cursor is out of bounds. -/
def Memory.inc (m : Memory) (amount : Int) : Option Memory :=
  if m.pointer < MEM_SIZE then
    some { m with
      data := fun i =>
        if i = m.pointer then (m.data m.pointer + (amount % (256 : Int)).toNat) % 256
        else m.data i }
  else none

/-- `Memory::read`: value of the current cell. -/
def Memory.read (m : Memory) : Option Nat :=
  if m.pointer < MEM_SIZE then some (m.data m.pointer) else none

/-- `Memory::zero`: whether the current cell is zero. -/
def Memory.zero (m : Memory) : Option Bool :=
  if m.pointer < MEM_SIZE then some (m.data m.pointer == 0) else none

/-- `Memory::set_zero`: set the current cell to zero. -/
def Memory.set_zero (m : Memory) : Option Memory :=
  if m.pointer < MEM_SIZE then
    some { m with data := fun i => if i = m.pointer then 0 else m.data i }
  else none

/-- The operation set of `src/bf.rs` (`enum Op`). -/
inductive Op where
  | Routine (ops : List Op) (cond : Bool)
  | Seek (amount : Int)
  | Inc (amount : Int)
  | Input
  | Output
  | Zero

/-- Executor state: the memory plus the output buffer threaded through
`Op::execute(&self, memory, output)`. -/
structure St where
  mem : Memory
  out : List Nat

/-- `Op::execute` of `src/bf.rs`, over a work list of operations.
A conditional `Routine` is entered only when the current cell is nonzero and
is re-queued behind its own body, which reproduces the source's do-while
loop: the body runs to completion and the governing cell is re-tested after
each full pass.  `Input` is `panic!("Input not yet supported")` in this
version of the source, hence `none`.  Fuel decreases at every step, so the
function is structurally recursive and computable by kernel reduction. -/
def run : Nat → List Op → St → Option St
  | _, [], s => some s
  | 0, _ :: _, _ => none
  | f + 1, op :: rest, s =>
    match op with
    | Op.Seek n => run f rest { s with mem := s.mem.seek n }
    | Op.Inc n => (s.mem.inc n).bind fun m => run f rest { s with mem := m }
    | Op.Zero => (s.mem.set_zero).bind fun m => run f rest { s with mem := m }
    | Op.Output => (s.mem.read).bind fun v => run f rest { s with out := s.out ++ [v] }
    | Op.Input => none
    | Op.Routine ops cond =>
      if cond then
        (s.mem.zero).bind fun z =>
          if z then run f rest s
          else run f (ops ++ Op.Routine ops cond :: rest) s
      else run f (ops ++ rest) s

/-- `Interpreter::commit`: push the workspace instruction, if any, onto the
operation list (the fresh workspace value is handled at each call site). -/
def commitOps : Option Op → List Op → List Op
  | some op, ops => ops ++ [op]
  | none, ops => ops

/-- The `match` used by the zero-loop check: `Op::Inc { .. } => true`. -/
def isIncOp : Op → Bool
  | Op.Inc _ => true
  | _ => false

/-- The tail of `Interpreter::interpret_routine`: replace the routine by
`Op::Zero` when it is conditional and every contained operation is an `Inc`,
otherwise wrap the operations in a routine. -/
def interpret_routine_result (ops : List Op) (cond : Bool) : Op :=
  if cond && ops.all isIncOp then Op.Zero else Op.Routine ops cond

/-- `Interpreter::process_workspace_seek`: coalesce into a pending `Seek`,
or commit the workspace and start a new `Seek`. -/
def process_workspace_seek (ws : Option Op) (ops : List Op) (amount : Int) :
    Option Op × List Op :=
  match ws with
  | some (Op.Seek current) => (some (Op.Seek (current + amount)), ops)
  | _ => (some (Op.Seek amount), commitOps ws ops)

/-- `Interpreter::process_workspace_inc`: coalesce into a pending `Inc`,
or commit the workspace and start a new `Inc`. -/
def process_workspace_inc (ws : Option Op) (ops : List Op) (amount : Int) :
    Option Op × List Op :=
  match ws with
  | some (Op.Inc current) => (some (Op.Inc (current + amount)), ops)
  | _ => (some (Op.Inc amount), commitOps ws ops)

/-- `Interpreter::interpret_vec`: translate source bytes into operations,
returning the accumulated list and the bytes remaining after a loop-close.
The recursive `interpret_routine` call at `b'['` is inlined (the returned
routine is wrapped through `interpret_routine_result`).  Fuel bounds the
recursion; `bs.length` fuel always suffices (proved below), and the fuel-0
fallback is never reached from `interpret`. -/
def interpret_vec : Nat → List Nat → Option Op → List Op → List Op × List Nat
  | 0, bs, ws, acc => (commitOps ws acc, bs)
  | _ + 1, [], ws, acc => (commitOps ws acc, [])
  | f + 1, b :: rest, ws, acc =>
    if b = 62 then
      let p := process_workspace_seek ws acc 1
      interpret_vec f rest p.1 p.2
    else if b = 60 then
      let p := process_workspace_seek ws acc (-1)
      interpret_vec f rest p.1 p.2
    else if b = 43 then
      let p := process_workspace_inc ws acc 1
      interpret_vec f rest p.1 p.2
    else if b = 45 then
      let p := process_workspace_inc ws acc (-1)
      interpret_vec f rest p.1 p.2
    else if b = 46 then
      interpret_vec f rest none (commitOps ws acc ++ [Op.Output])
    else if b = 44 then
      interpret_vec f rest none (commitOps ws acc ++ [Op.Input])
    else if b = 91 then
      let inner := interpret_vec f rest none []
      interpret_vec f inner.2 none
        (commitOps ws acc ++ [interpret_routine_result inner.1 true])
    else if b = 93 then
      (commitOps ws acc, rest)
    else
      interpret_vec f rest ws acc

/-- `Interpreter::interpret`: translate a whole program into one top-level
non-conditional routine (`interpret_routine(program, false)`). -/
def interpret (bs : List Nat) : Op :=
  interpret_routine_result (interpret_vec bs.length bs none []).1 false

/-- Run a translated program from fresh memory with an empty output buffer
and return the collected output bytes (the execution half of `bf`). -/
def bf_run (prog : List Nat) (fuel : Nat) : Option (List Nat) :=
  (run fuel [interpret prog] ⟨Memory.new, []⟩).map St.out

/-- A UTF-8 continuation byte (`0x80`–`0xBF`). -/
def isCont (b : Nat) : Bool := 0x80 ≤ b && b ≤ 0xBF

/-- Modelled from the spec: validity of the output bytes in the target text
encoding (UTF-8).  `bf` in `src/bf.rs` calls `String::from_utf8(output)`,
whose definition lives outside this repository; this is the standard
byte-level well-formedness predicate of RFC 3629 that it checks. -/
def validUtf8 : List Nat → Bool
  | [] => true
  | b :: rest =>
    if b ≤ 0x7F then validUtf8 rest
    else if 0xC2 ≤ b && b ≤ 0xDF then
      match rest with
      | c1 :: rest' => isCont c1 && validUtf8 rest'
      | [] => false
    else if b = 0xE0 then
      match rest with
      | c1 :: c2 :: rest' => (0xA0 ≤ c1 && c1 ≤ 0xBF) && isCont c2 && validUtf8 rest'
      | _ => false
    else if 0xE1 ≤ b && b ≤ 0xEC then
      match rest with
      | c1 :: c2 :: rest' => isCont c1 && isCont c2 && validUtf8 rest'
      | _ => false
    else if b = 0xED then
      match rest with
      | c1 :: c2 :: rest' => (0x80 ≤ c1 && c1 ≤ 0x9F) && isCont c2 && validUtf8 rest'
      | _ => false
    else if 0xEE ≤ b && b ≤ 0xEF then
      match rest with
      | c1 :: c2 :: rest' => isCont c1 && isCont c2 && validUtf8 rest'
      | _ => false
    else if b = 0xF0 then
      match rest with
      | c1 :: c2 :: c3 :: rest' =>
        (0x90 ≤ c1 && c1 ≤ 0xBF) && isCont c2 && isCont c3 && validUtf8 rest'
      | _ => false
    else if 0xF1 ≤ b && b ≤ 0xF3 then
      match rest with
      | c1 :: c2 :: c3 :: rest' => isCont c1 && isCont c2 && isCont c3 && validUtf8 rest'
      | _ => false
    else if b = 0xF4 then
      match rest with
      | c1 :: c2 :: c3 :: rest' =>
        (0x80 ≤ c1 && c1 ≤ 0x8F) && isCont c2 && isCont c3 && validUtf8 rest'
      | _ => false
    else false

/-- The public `bf` function of `src/bf.rs`: interpret, execute from fresh
memory, then decode the collected output — `String::from_utf8(output).unwrap()`
panics (`none`) when the bytes are not valid UTF-8.  The successfully decoded
result is represented by its byte sequence. -/
def bf (prog : List Nat) (fuel : Nat) : Option (List Nat) :=
  (bf_run prog fuel).bind fun out => if validUtf8 out then some out else none

/-- The operation set of `src/bf/op.rs` (`enum Op` with `AddAndZero`).
The `f32` factor of an `AddAndZero` target is modelled as an exact rational:
the source computes it as `amount as f32 / step as f32`, and every factor
handled by the optimizer is the quotient of two machine integers. -/
inductive Opx where
  | Routine (ops : List Opx) (cond : Bool)
  | Seek (amount : Int)
  | Inc (amount : Int)
  | Input
  | Output
  | Zero
  | AddAndZero (targets : List (Int × ℚ))

/-- The factor computed for one (Seek, Inc) pair:
`amount as f32 / step as f32` when the amount is nonzero, `0f32` otherwise
(`add_and_zero.rs`, lines 100–109), as an exact rational. -/
def loopFactor (step amount : Int) : ℚ :=
  if amount ≠ 0 then (amount : ℚ) / (step : ℚ) else 0

/-- The target-list update for one (Seek, Inc) pair: push
`(offset, factor)` unless the factor is zero (`add_and_zero.rs`,
lines 116–119). -/
def loopTargets (step a amount offset : Int) (targets : List (Int × ℚ)) :
    List (Int × ℚ) :=
  if loopFactor step amount ≠ 0 then targets ++ [(offset + a, loopFactor step amount)]
  else targets

/-- The pair-consuming loop of `optimize_add_and_zero`
(`src/bf/optimize/routine/add_and_zero.rs`, lines 88–138).  The source steps
an `enumerate` iterator two entries at a time and fires its final check when
`sub_i == ops.len() - 2`, i.e. exactly when one operation remains after the
current (Seek, Inc) pair; that positional condition is the `[lastOp]` match
below.  `iter.next()?` exhaustion and every failed shape match are `none`. -/
def loopPairs (step : Int) : List Opx → Int → List (Int × ℚ) → Option Opx
  | Opx.Seek a :: Opx.Inc amount :: rest, offset, targets =>
    if offset + a = 0 then none
    else
      match rest with
      | [lastOp] =>
        match lastOp with
        | Opx.Seek b =>
          if b = -(offset + a) then
            some (Opx.AddAndZero (loopTargets step a amount offset targets))
          else none
        | _ => none
      | _ => loopPairs step rest (offset + a) (loopTargets step a amount offset targets)
  | _, _, _ => none

/-- `optimize_add_and_zero` (`src/bf/optimize/routine/add_and_zero.rs`):
`None` unless the routine is conditional with at least 4 operations whose
first entry is a strictly negative `Inc`; the remainder is handed to the
pair loop with `step = -amount`. -/
def optimize_add_and_zero (cond : Bool) (ops : List Opx) : Option Opx :=
  if !cond || ops.length < 4 then none
  else
    match ops with
    | Opx.Inc amount :: rest =>
      if amount < 0 then loopPairs (-amount) rest 0 [] else none
    | _ => none

/-- Shape vocabulary for the add-and-zero characterization: a list of
(seek amount, inc amount) pairs laid out as alternating `Seek`/`Inc`
operations. -/
def pairsOps : List (Int × Int) → List Opx
  | [] => []
  | (a, m) :: rest => Opx.Seek a :: Opx.Inc m :: pairsOps rest

/-- Sum of the seek amounts of a pair list. -/
def seekSum : List (Int × Int) → Int
  | [] => 0
  | (a, _) :: rest => a + seekSum rest

/-- The running offset never returns to 0 at a pair boundary. -/
def noZeroBoundary : Int → List (Int × Int) → Bool
  | _, [] => true
  | off, (a, _) :: rest => decide (off + a ≠ 0) && noZeroBoundary (off + a) rest

/-- The target list the optimizer accumulates: pairs in encounter order as
(running offset, amount / step), entries with amount 0 dropped. -/
def pairTargets (step : Int) : Int → List (Int × Int) → List (Int × ℚ)
  | _, [] => []
  | off, (a, m) :: rest =>
    (if m ≠ 0 then [(off + a, (m : ℚ) / (step : ℚ))] else []) ++
      pairTargets step (off + a) rest

/-- Modelled from the spec: `Memory::write` (called by the `Input` arm of
`Op::execute` in `src/bf/op.rs`) is declared in a module that is not under
`src/`; per the spec it writes the byte obtained from the reader into the
current cell.  Indexing the cell is bounds-checked like every other access. -/
def Memory.write (m : Memory) (value : Nat) : Option Memory :=
  if m.pointer < MEM_SIZE then
    some { m with data := fun i => if i = m.pointer then value else m.data i }
  else none

/-- Modelled from the spec: `Memory::copy_zero` (called by the `AddAndZero`
arm of `Op::execute` in `src/bf/op.rs`) is declared in a module that is not
under `src/`; per the spec it adds `factor × current_cell_value` (truncated
to an integer, mod 256) to the cell at each relative offset, then zeroes the
current cell. -/
def Memory.copy_zero (m : Memory) (targets : List (Int × ℚ)) : Option Memory :=
  if m.pointer < MEM_SIZE then
    let v := m.data m.pointer
    let step := fun (mem : Option Memory) (t : Int × ℚ) =>
      mem.bind fun mm =>
        let idx := (mm.pointer + (t.1 % (USIZE : Int)).toNat) % USIZE
        let upd : Nat → Nat := fun i =>
          if i = idx then (mm.data idx + ((⌊t.2 * (v : ℚ)⌋ % 256).toNat)) % 256
          else mm.data i
        if idx < MEM_SIZE then some { mm with data := upd } else none
    (targets.foldl step (some m)).bind fun mm =>
      if mm.pointer < MEM_SIZE then
        some { mm with data := fun i => if i = mm.pointer then 0 else mm.data i }
      else none
  else none

/-- Executor state for `src/bf/op.rs`: memory, the bytes the external reader
will supply to `Input`, and the output buffer. -/
structure Stx where
  mem : Memory
  input : List Nat
  out : List Nat

/-- `Op::execute` of `src/bf/op.rs`, over a work list, with the same
conditional-routine re-queueing as `run`.  `Input` opens the terminal reader
and reads exactly one byte: the head of the pending input stream; when the
reader cannot supply a byte the `expect` panics (`none`).  The immediate
`print!` of an unbuffered `Output` is an effect outside the output buffer
and is not modelled. -/
def runx : Nat → List Opx → Stx → Option Stx
  | _, [], s => some s
  | 0, _ :: _, _ => none
  | f + 1, op :: rest, s =>
    match op with
    | Opx.Seek n => runx f rest { s with mem := s.mem.seek n }
    | Opx.Inc n => (s.mem.inc n).bind fun m => runx f rest { s with mem := m }
    | Opx.Zero => (s.mem.set_zero).bind fun m => runx f rest { s with mem := m }
    | Opx.Output => (s.mem.read).bind fun v => runx f rest { s with out := s.out ++ [v] }
    | Opx.Input =>
      match s.input with
      | [] => none
      | b :: ins =>
        (s.mem.write b).bind fun m => runx f rest { s with mem := m, input := ins }
    | Opx.AddAndZero targets =>
      (s.mem.copy_zero targets).bind fun m => runx f rest { s with mem := m }
    | Opx.Routine ops cond =>
      if cond then
        (s.mem.zero).bind fun z =>
          if z then runx f rest s
          else runx f (ops ++ Opx.Routine ops cond :: rest) s
      else runx f (ops ++ rest) s

/-- The eight recognized source bytes (`> < + - . , [ ]`). -/
def isCmd (b : Nat) : Bool :=
  b = 62 || b = 60 || b = 43 || b = 45 || b = 46 || b = 44 || b = 91 || b = 93

/-- A seek or increment token (`> < + -`). -/
def isSIByte (b : Nat) : Bool :=
  b = 62 || b = 60 || b = 43 || b = 45

/-- Follows the spec's words: naive one-token-at-a-time execution of a
program made only of seek and increment tokens, against the same memory
model — each token moves the cursor by ±1 or adds ±1 (mod 256) to the
current cell. -/
def naiveRun : List Nat → Memory → Option Memory
  | [], m => some m
  | b :: rest, m =>
    if b = 62 then naiveRun rest (m.seek 1)
    else if b = 60 then naiveRun rest (m.seek (-1))
    else if b = 43 then (m.inc 1).bind (naiveRun rest)
    else if b = 45 then (m.inc (-1)).bind (naiveRun rest)
    else naiveRun rest m

/-- Straight-line executor for routine-free, I/O-free operation lists;
proof infrastructure relating `run` to `naiveRun`. -/
def execSI : List Op → Memory → Option Memory
  | [], m => some m
  | Op.Seek n :: rest, m => execSI rest (m.seek n)
  | Op.Inc n :: rest, m => (m.inc n).bind (execSI rest)
  | _ :: _, _ => none

/-- Is an operation a `Seek` or an `Inc`? -/
def isSIOp : Op → Bool
  | Op.Seek _ => true
  | Op.Inc _ => true
  | _ => false

/-- The workspace as a list of at most one operation. -/
def wsList : Option Op → List Op
  | some op => [op]
  | none => []

/-- A concrete memory whose cell 0 holds 255 (for witnesses). -/
def mem255 : Memory := ⟨fun i => if i = 0 then 255 else 0, 0⟩

/-- The source text `"+++++[>++++<-]>."` as bytes. -/
def prog5x4 : List Nat := [43, 43, 43, 43, 43, 91, 62, 43, 43, 43, 43, 60, 45, 93, 62, 46]

/-- Fresh executor state (for witnesses). -/
def stNew : St := ⟨Memory.new, []⟩

/-- C1 (counterexample): an empty conditional loop body is rewritten to
`Zero` by `interpret_routine` — `ops.iter().all(..)` is vacuously true on an
empty body — contradicting the claim that an empty body returns no
replacement and stays a plain conditional `Routine`. -/
theorem zero_loop_empty_counterexample :
    interpret_routine_result [] true = Op.Zero ∧
    interpret_routine_result [] true ≠ Op.Routine [] true := by
  refine ⟨rfl, fun h => ?_⟩
  rw [interpret_routine_result] at h
  simp at h

/-- C1 (amended): the zero-loop optimizer returns `Zero` iff the loop is
conditional and every instruction in its body is an `Inc` — vacuously
including the empty body, which is also rewritten to `Zero`; whenever that
test fails (in particular on any body containing a `Seek`, `Output`, `Input`
or nested `Routine`) the loop stays a plain conditional `Routine`. -/
theorem zero_loop_characterization (ops : List Op) (cond : Bool) :
    (interpret_routine_result ops cond = Op.Zero ↔
      cond = true ∧ ops.all isIncOp = true) ∧
    (¬(cond = true ∧ ops.all isIncOp = true) →
      interpret_routine_result ops cond = Op.Routine ops cond) := by
  unfold interpret_routine_result
  by_cases hc : cond = true <;> by_cases ha : ops.all isIncOp = true <;>
    simp [hc, ha]

/-- Witness for the zero-loop characterization at a concrete body. -/
theorem zero_loop_characterization_witness :
    (interpret_routine_result [Op.Output] true = Op.Zero ↔
      true = true ∧ [Op.Output].all isIncOp = true) ∧
    (¬(true = true ∧ [Op.Output].all isIncOp = true) →
      interpret_routine_result [Op.Output] true = Op.Routine [Op.Output] true) :=
  zero_loop_characterization [Op.Output] true

/-- C5: `Memory::inc` adds its amount modulo 256 to the current cell —
the `as u8` cast truncates mod 256 and the `u8` addition wraps — leaving
the cursor and every other cell untouched; and incrementing a cell holding
255 by 1 yields 0. -/
theorem inc_mod256 (m : Memory) (n : Int) (hp : m.pointer < MEM_SIZE) :
    (∃ m', m.inc n = some m' ∧
      m'.pointer = m.pointer ∧
      ((m'.data m.pointer : ℤ) = ((m.data m.pointer : ℤ) + n) % 256) ∧
      ∀ i, i ≠ m.pointer → m'.data i = m.data i) ∧
    (mem255.inc 1).map (fun mm => mm.data 0) = some 0 := by
  constructor
  · have hinc : m.inc n = some { m with
        data := fun i =>
          if i = m.pointer then (m.data m.pointer + (n % (256 : Int)).toNat) % 256
          else m.data i } := by
      rw [Memory.inc, if_pos hp]
    refine ⟨_, hinc, rfl, ?_, ?_⟩
    · simp only [if_pos trivial]
      omega
    · intro i hi
      simp [hi]
  · decide

/-- Witness for `inc_mod256` at cell value 255, amount 1. -/
theorem inc_mod256_witness :
    mem255.pointer < MEM_SIZE ∧
    (mem255.inc 1).map (fun mm => mm.data 0) = some 0 :=
  ⟨by decide, (inc_mod256 mem255 1 (by decide)).2⟩

/-- C6 (code bug): `Memory::seek` is an unchecked wrapping `usize` add, so
the cursor invariant `0 ≤ cursor < 30000` is not preserved: seeking −1 from
a fresh memory leaves the cursor at `2^64 − 1`, and seeking 30000 leaves it
at 30000 — both outside the array, where the next cell access panics.
(The source's own bounds check is commented out under a `TODO`.) -/
theorem seek_escapes_bounds :
    (Memory.new.seek (-1)).pointer = USIZE - 1 ∧
    ¬ (Memory.new.seek (-1)).pointer < MEM_SIZE ∧
    (Memory.new.seek 30000).pointer = 30000 ∧
    ¬ (Memory.new.seek 30000).pointer < MEM_SIZE := by
  refine ⟨?_, ?_, ?_, ?_⟩ <;> decide

/-- C7: `"+++++[>++++<-]>."` translates to an `Inc 5`, a conditional loop
`[Seek 1, Inc 4, Seek −1, Inc −1]`, a `Seek 1` and an `Output`, and executes
to exactly one output byte of value 20; and the add-and-zero optimizer
declines that loop body (its first operation is a `Seek`, not a negative
`Inc`), so the optimized pipeline keeps the identical plain conditional
routine — both paths agree. -/
theorem prog_5x4_output :
    bf_run prog5x4 100 = some [20] ∧
    interpret prog5x4 =
      Op.Routine [Op.Inc 5,
        Op.Routine [Op.Seek 1, Op.Inc 4, Op.Seek (-1), Op.Inc (-1)] true,
        Op.Seek 1, Op.Output] false ∧
    optimize_add_and_zero true
      [Opx.Seek 1, Opx.Inc 4, Opx.Seek (-1), Opx.Inc (-1)] = none := by
  refine ⟨by decide, by rfl, by rfl⟩

/-- C10: `bf` decodes the collected output as UTF-8 and panics on invalid
bytes: whenever execution completes normally with output `out`, the result
is `out` exactly when `out` is valid UTF-8 and a panic (`none`) otherwise;
the program `"-."` completes normally with output byte 255, which is not
valid UTF-8, so the run returns no result. -/
theorem bf_utf8_panic :
    (∀ prog fuel out, bf_run prog fuel = some out →
      bf prog fuel = if validUtf8 out then some out else none) ∧
    bf_run [45, 46] 10 = some [255] ∧
    bf [45, 46] 10 = none := by
  refine ⟨?_, by decide, by decide⟩
  intro prog fuel out h
  simp [bf, h]

/-- Witness for the decoding clause of `bf_utf8_panic` on a program whose
output is valid UTF-8. -/
theorem bf_utf8_panic_witness :
    bf [43, 46] 5 = if validUtf8 [1] then some [1] else none :=
  bf_utf8_panic.1 [43, 46] 5 [1] (by decide)

/-- C8: the `Input` arm of `Op::execute` (`src/bf/op.rs`) obtains exactly one
byte from the external reader — the head of the pending input stream — and
writes it into the current cell, consuming nothing else; when the reader
cannot supply a byte the `expect` panics and the run terminates with no
value written anywhere. -/
theorem input_semantics (f : Nat) (rest : List Opx) (m : Memory) (b : Nat)
    (ins outs : List Nat) (hp : m.pointer < MEM_SIZE) :
    (∃ m', m.write b = some m' ∧ m'.data m.pointer = b ∧ m'.pointer = m.pointer ∧
      (∀ i, i ≠ m.pointer → m'.data i = m.data i) ∧
      runx (f + 1) (Opx.Input :: rest) ⟨m, b :: ins, outs⟩ =
        runx f rest ⟨m', ins, outs⟩) ∧
    runx (f + 1) (Opx.Input :: rest) ⟨m, [], outs⟩ = none := by
  have hw : m.write b =
      some { m with data := fun i => if i = m.pointer then b else m.data i } := by
    rw [Memory.write, if_pos hp]
  refine ⟨⟨_, hw, by simp, rfl, ?_, ?_⟩, ?_⟩
  · intro i hi
    simp [hi]
  · simp [runx, hw]
  · rfl

/-- Witness for `input_semantics`: one concrete `Input` step reading byte 65. -/
theorem input_semantics_witness :
    (∃ m', Memory.new.write 65 = some m' ∧ m'.data Memory.new.pointer = 65 ∧
      m'.pointer = Memory.new.pointer ∧
      (∀ i, i ≠ Memory.new.pointer → m'.data i = Memory.new.data i) ∧
      runx 2 (Opx.Input :: []) ⟨Memory.new, 65 :: [], []⟩ =
        runx 1 [] ⟨m', [], []⟩) ∧
    runx 2 (Opx.Input :: []) ⟨Memory.new, [], []⟩ = none :=
  input_semantics 1 [] Memory.new 65 [] [] (by decide)

theorem pairsOps_length (ps : List (Int × Int)) :
    (pairsOps ps).length = 2 * ps.length := by
  induction ps with
  | nil => rfl
  | cons p rest ih =>
    rcases p with ⟨a, mval⟩
    simp [pairsOps, ih]
    omega

theorem noZeroBoundary_cons (off a mval : Int) (rest : List (Int × Int)) :
    noZeroBoundary off ((a, mval) :: rest) = true ↔
      (off + a ≠ 0 ∧ noZeroBoundary (off + a) rest = true) := by
  simp [noZeroBoundary]

theorem factor_ne_zero (mval step : Int) (hs : step ≠ 0) (hm : mval ≠ 0) :
    (mval : ℚ) / (step : ℚ) ≠ 0 :=
  div_ne_zero (Int.cast_ne_zero.mpr hm) (Int.cast_ne_zero.mpr hs)


theorem loopTargets_eq (step a mval offset : Int) (targets : List (Int × ℚ))
    (hs : step ≠ 0) :
    loopTargets step a mval offset targets =
      targets ++ (if mval ≠ 0 then [(offset + a, (mval : ℚ) / (step : ℚ))] else []) := by
  by_cases hm : mval = 0
  · simp [loopTargets, loopFactor, hm]
  · simp [loopTargets, loopFactor, hm, factor_ne_zero mval step hs hm]

theorem loopPairs_final (step a mval b offset : Int) (targets : List (Int × ℚ)) :
    loopPairs step [Opx.Seek a, Opx.Inc mval, Opx.Seek b] offset targets =
      if offset + a = 0 then none
      else if b = -(offset + a) then
        some (Opx.AddAndZero (loopTargets step a mval offset targets))
      else none := rfl

theorem loopPairs_step (step a mval : Int) (z w : Opx) (body : List Opx)
    (offset : Int) (targets : List (Int × ℚ)) :
    loopPairs step (Opx.Seek a :: Opx.Inc mval :: z :: w :: body) offset targets =
      if offset + a = 0 then none
      else loopPairs step (z :: w :: body) (offset + a)
        (loopTargets step a mval offset targets) := rfl

theorem loopPairs_shape (step : Int) (hs : step ≠ 0) :
    ∀ n (body : List Opx), body.length ≤ n → ∀ offset targets r,
      loopPairs step body offset targets = some r →
      ∃ ps back, ps ≠ [] ∧ body = pairsOps ps ++ [Opx.Seek back] ∧
        noZeroBoundary offset ps = true ∧ back = -(offset + seekSum ps) ∧
        r = Opx.AddAndZero (targets ++ pairTargets step offset ps) := by
  intro n
  induction n with
  | zero =>
    intro body hlen offset targets r h
    have hb : body = [] := List.eq_nil_of_length_eq_zero (Nat.le_zero.mp hlen)
    subst hb
    exact Option.noConfusion h
  | succ n ih =>
    intro body hlen offset targets r h
    rcases body with _ | ⟨x, body1⟩
    · exact Option.noConfusion h
    rcases x with _ | a | _ | _ | _ | _ | _
    all_goals try exact Option.noConfusion h
    rcases body1 with _ | ⟨y, body2⟩
    · exact Option.noConfusion h
    rcases y with _ | _ | mval | _ | _ | _ | _
    all_goals try exact Option.noConfusion h
    rcases body2 with _ | ⟨z, body3⟩
    · have h' : (if offset + a = 0 then (none : Option Opx) else none) = some r := h
      rw [ite_self] at h'
      exact Option.noConfusion h'
    rcases body3 with _ | ⟨w, body4⟩
    · -- body = [Seek a, Inc mval, z]
      rcases z with _ | b | _ | _ | _ | _ | _
      all_goals try {
        have h' : (if offset + a = 0 then (none : Option Opx) else none) = some r := h
        rw [ite_self] at h'
        exact Option.noConfusion h' }
      rw [loopPairs_final] at h
      by_cases hoff : offset + a = 0
      · rw [if_pos hoff] at h
        exact Option.noConfusion h
      rw [if_neg hoff] at h
      by_cases hb : b = -(offset + a)
      · rw [if_pos hb] at h
        have hr := Option.some.inj h
        refine ⟨[(a, mval)], b, by simp, by simp [pairsOps], ?_, ?_, ?_⟩
        · rw [noZeroBoundary_cons]
          exact ⟨hoff, by simp [noZeroBoundary]⟩
        · rw [hb]
          simp [seekSum]
        · rw [← hr, loopTargets_eq step a mval offset targets hs]
          simp [pairTargets]
      · rw [if_neg hb] at h
        exact Option.noConfusion h
    · -- body = Seek a :: Inc mval :: z :: w :: body4
      rw [loopPairs_step] at h
      by_cases hoff : offset + a = 0
      · rw [if_pos hoff] at h
        exact Option.noConfusion h
      rw [if_neg hoff] at h
      have hlen2 : (z :: w :: body4).length ≤ n := by
        simp only [List.length_cons] at hlen ⊢
        omega
      obtain ⟨ps', back, hne, hshape, hnz, hback, hr⟩ :=
        ih (z :: w :: body4) hlen2 (offset + a)
          (loopTargets step a mval offset targets) r h
      refine ⟨(a, mval) :: ps', back, by simp, ?_, ?_, ?_, ?_⟩
      · simp [pairsOps, hshape]
      · rw [noZeroBoundary_cons]
        exact ⟨hoff, hnz⟩
      · rw [hback]
        simp only [seekSum]
        ring
      · rw [hr, loopTargets_eq step a mval offset targets hs]
        simp [pairTargets, List.append_assoc]

theorem loopPairs_complete (step : Int) (hs : step ≠ 0) :
    ∀ (ps : List (Int × Int)) (offset : Int) (targets : List (Int × ℚ)),
      ps ≠ [] → noZeroBoundary offset ps = true →
      loopPairs step (pairsOps ps ++ [Opx.Seek (-(offset + seekSum ps))]) offset targets =
        some (Opx.AddAndZero (targets ++ pairTargets step offset ps)) := by
  intro ps
  induction ps with
  | nil =>
    intro offset targets hne _
    exact absurd rfl hne
  | cons p ps' ih =>
    rcases p with ⟨a, mval⟩
    intro offset targets _ hnz
    rw [noZeroBoundary_cons] at hnz
    obtain ⟨hoff, hnz'⟩ := hnz
    rcases ps' with _ | ⟨⟨a2, m2⟩, ps''⟩
    · -- ps = [(a, mval)]
      have e1 : -(offset + seekSum [(a, mval)]) = -(offset + a) := by
        simp [seekSum]
      have e2 : pairsOps [(a, mval)] ++ [Opx.Seek (-(offset + a))] =
          [Opx.Seek a, Opx.Inc mval, Opx.Seek (-(offset + a))] := by
        simp [pairsOps]
      rw [e1, e2, loopPairs_final, if_neg hoff, if_pos rfl,
        loopTargets_eq step a mval offset targets hs]
      simp [pairTargets]
    · -- ps = (a, mval) :: (a2, m2) :: ps''
      have e1 : -(offset + seekSum ((a, mval) :: (a2, m2) :: ps'')) =
          -((offset + a) + seekSum ((a2, m2) :: ps'')) := by
        simp only [seekSum]
        ring
      have e2 : pairsOps ((a, mval) :: (a2, m2) :: ps'') ++
            [Opx.Seek (-((offset + a) + seekSum ((a2, m2) :: ps'')))] =
          Opx.Seek a :: Opx.Inc mval :: Opx.Seek a2 :: Opx.Inc m2 ::
            (pairsOps ps'' ++
              [Opx.Seek (-((offset + a) + seekSum ((a2, m2) :: ps'')))]) := by
        simp [pairsOps]
      rw [e1, e2, loopPairs_step, if_neg hoff]
      have hrec := ih (offset + a) (loopTargets step a mval offset targets)
        (by simp) hnz'
      have e3 : pairsOps ((a2, m2) :: ps'') ++
            [Opx.Seek (-((offset + a) + seekSum ((a2, m2) :: ps'')))] =
          Opx.Seek a2 :: Opx.Inc m2 ::
            (pairsOps ps'' ++
              [Opx.Seek (-((offset + a) + seekSum ((a2, m2) :: ps'')))]) := by
        simp [pairsOps]
      rw [e3] at hrec
      rw [hrec, loopTargets_eq step a mval offset targets hs]
      simp [pairTargets, List.append_assoc]

theorem optimize_add_and_zero_inc (amount : Int) (rest : List Opx)
    (h4 : ¬(Opx.Inc amount :: rest).length < 4) :
    optimize_add_and_zero true (Opx.Inc amount :: rest) =
      if amount < 0 then loopPairs (-amount) rest 0 [] else none := by
  unfold optimize_add_and_zero
  have h4' : ¬ rest.length + 1 < 4 := by simpa using h4
  simp [h4']

/-- C2: `optimize_add_and_zero` returns a replacement `AddAndZero` exactly
when the loop is conditional, its body has at least 4 instructions (3 or
fewer are never rewritten), the first instruction is an `Inc` of strictly
negative amount (its absolute value the step), the remainder consists of
(Seek, Inc) pairs whose running offset never returns to 0 at a pair
boundary, and a final `Seek` cancels the accumulated offset back to 0; the
returned instruction holds the (offset, amount/step) pairs in encounter
order with zero-factor pairs dropped. -/
theorem add_and_zero_characterization (cond : Bool) (ops : List Opx) (r : Opx) :
    (optimize_add_and_zero cond ops = some r ↔
      cond = true ∧ ∃ step ps back, 0 < step ∧ ps ≠ [] ∧
        ops = Opx.Inc (-step) :: (pairsOps ps ++ [Opx.Seek back]) ∧
        noZeroBoundary 0 ps = true ∧ back = -(seekSum ps) ∧
        r = Opx.AddAndZero (pairTargets step 0 ps)) ∧
    (ops.length < 4 → optimize_add_and_zero cond ops = none) := by
  constructor
  · constructor
    · intro h
      have hc : cond = true := by
        by_contra hcf
        have : cond = false := by
          revert hcf
          cases cond <;> simp
        rw [this] at h
        simp [optimize_add_and_zero] at h
      subst hc
      by_cases hlen4 : ops.length < 4
      · exact absurd h (by simp [optimize_add_and_zero, hlen4])
      rcases ops with _ | ⟨x, rest⟩
      · exact absurd (by simp) hlen4
      have h4' : ¬ rest.length + 1 < 4 := by simpa using hlen4
      rcases x with ⟨ops1, cond1⟩ | a | amount | _ | _ | _ | tg
      · simp [optimize_add_and_zero, h4'] at h
      · simp [optimize_add_and_zero, h4'] at h
      · -- head is Inc amount
        rw [optimize_add_and_zero_inc amount rest hlen4] at h
        by_cases ham : amount < 0
        · rw [if_pos ham] at h
          obtain ⟨ps, back, hne, hshape, hnz, hback, hr⟩ :=
            loopPairs_shape (-amount) (by omega) rest.length rest le_rfl 0 [] r h
          refine ⟨rfl, -amount, ps, back, by omega, hne, ?_, hnz, ?_, ?_⟩
          · rw [hshape, neg_neg]
          · rw [hback, zero_add]
          · rw [hr, List.nil_append]
        · rw [if_neg ham] at h
          exact Option.noConfusion h
      · simp [optimize_add_and_zero, h4'] at h
      · simp [optimize_add_and_zero, h4'] at h
      · simp [optimize_add_and_zero, h4'] at h
      · simp [optimize_add_and_zero, h4'] at h
    · rintro ⟨hc, step, ps, back, hstep, hne, hops, hnz, hback, hr⟩
      subst hc hops hback hr
      have hp : 0 < ps.length := List.length_pos.mpr hne
      have h4 : ¬(Opx.Inc (-step) :: (pairsOps ps ++ [Opx.Seek (-(seekSum ps))])).length < 4 := by
        simp [pairsOps_length]
        omega
      rw [optimize_add_and_zero_inc (-step) _ h4, if_pos (by omega : (-step : Int) < 0),
        neg_neg]
      have hcomp := loopPairs_complete step (by omega) ps 0 [] hne hnz
      simpa using hcomp
  · intro hlen
    cases cond <;> simp [optimize_add_and_zero, hlen]

/-- Witness for the add-and-zero characterization: the 4-instruction copy
loop body of `[->+<]` is rewritten to a single-target `AddAndZero`. -/
theorem add_and_zero_characterization_witness :
    optimize_add_and_zero true
      [Opx.Inc (-1), Opx.Seek 1, Opx.Inc 1, Opx.Seek (-1)] =
      some (Opx.AddAndZero [(1, 1)]) := by
  refine (add_and_zero_characterization true
    [Opx.Inc (-1), Opx.Seek 1, Opx.Inc 1, Opx.Seek (-1)]
    (Opx.AddAndZero [(1, 1)])).1.mpr
    ⟨rfl, 1, [(1, 1)], -1, one_pos, by simp, by norm_num [pairsOps], ?_, ?_, ?_⟩
  · simp [noZeroBoundary]
  · norm_num [seekSum]
  · norm_num [pairTargets]

theorem run_mono : ∀ (f : Nat) (l : List Op) (s t : St),
    run f l s = some t → run (f + 1) l s = some t := by
  intro f
  induction f with
  | zero =>
    intro l s t h
    rcases l with _ | ⟨op, rest⟩
    · exact h
    · exact Option.noConfusion h
  | succ f ih =>
    intro l s t h
    rcases l with _ | ⟨op, rest⟩
    · exact h
    rcases op with ⟨ops, cond⟩ | n | n | _ | _ | _
    · rcases cond with _ | _
      · exact (ih (ops ++ rest) s t (h : run f (ops ++ rest) s = some t) :
          run (f + 1) (ops ++ rest) s = some t)
      · have hA : (s.mem.zero).bind (fun z => if z then run f rest s
            else run f (ops ++ Op.Routine ops true :: rest) s) = some t := h
        show (s.mem.zero).bind (fun z => if z then run (f + 1) rest s
            else run (f + 1) (ops ++ Op.Routine ops true :: rest) s) = some t
        rcases hz : s.mem.zero with _ | z
        · rw [hz] at hA
          exact Option.noConfusion hA
        · rw [hz] at hA
          rcases z with _ | _
          · exact (ih _ s t
              (hA : run f (ops ++ Op.Routine ops true :: rest) s = some t) :
              run (f + 1) (ops ++ Op.Routine ops true :: rest) s = some t)
          · exact (ih rest s t (hA : run f rest s = some t) :
              run (f + 1) rest s = some t)
    · exact (ih rest _ t (h : run f rest { s with mem := s.mem.seek n } = some t) :
        run (f + 1) rest { s with mem := s.mem.seek n } = some t)
    · have hA : (s.mem.inc n).bind (fun m => run f rest { s with mem := m }) = some t := h
      show (s.mem.inc n).bind (fun m => run (f + 1) rest { s with mem := m }) = some t
      rcases hm : s.mem.inc n with _ | m
      · rw [hm] at hA
        exact Option.noConfusion hA
      · rw [hm] at hA
        exact (ih rest _ t (hA : run f rest { s with mem := m } = some t) :
          run (f + 1) rest { s with mem := m } = some t)
    · exact Option.noConfusion h
    · have hA : (s.mem.read).bind (fun v => run f rest { s with out := s.out ++ [v] }) = some t := h
      show (s.mem.read).bind (fun v => run (f + 1) rest { s with out := s.out ++ [v] }) = some t
      rcases hv : s.mem.read with _ | v
      · rw [hv] at hA
        exact Option.noConfusion hA
      · rw [hv] at hA
        exact (ih rest _ t (hA : run f rest { s with out := s.out ++ [v] } = some t) :
          run (f + 1) rest { s with out := s.out ++ [v] } = some t)
    · have hA : (s.mem.set_zero).bind (fun m => run f rest { s with mem := m }) = some t := h
      show (s.mem.set_zero).bind (fun m => run (f + 1) rest { s with mem := m }) = some t
      rcases hm : s.mem.set_zero with _ | m
      · rw [hm] at hA
        exact Option.noConfusion hA
      · rw [hm] at hA
        exact (ih rest _ t (hA : run f rest { s with mem := m } = some t) :
          run (f + 1) rest { s with mem := m } = some t)

theorem run_le : ∀ (g f : Nat), f ≤ g → ∀ (l : List Op) (s t : St),
    run f l s = some t → run g l s = some t := by
  intro g
  induction g with
  | zero =>
    intro f hf l s t h
    rw [Nat.le_zero.mp hf] at h
    exact h
  | succ g ih =>
    intro f hf l s t h
    rcases Nat.eq_or_lt_of_le hf with heq | hlt
    · exact heq ▸ h
    · exact run_mono g l s t (ih f (by omega) l s t h)

theorem run_append_some : ∀ (f : Nat) (xs ys : List Op) (s t : St),
    run f (xs ++ ys) s = some t →
    ∃ u g k, g ≤ f ∧ k ≤ f ∧ run g xs s = some u ∧ run k ys u = some t := by
  intro f
  induction f with
  | zero =>
    intro xs ys s t h
    rcases xs with _ | ⟨op, rest⟩
    · exact ⟨s, 0, 0, le_rfl, le_rfl, rfl, h⟩
    · exact Option.noConfusion h
  | succ f ih =>
    intro xs ys s t h
    rcases xs with _ | ⟨op, rest⟩
    · exact ⟨s, 0, f + 1, Nat.zero_le _, le_rfl, rfl, h⟩
    rcases op with ⟨ops, cond⟩ | n | n | _ | _ | _
    · rcases cond with _ | _
      · have hA : run f ((ops ++ rest) ++ ys) s = some t := by
          rw [List.append_assoc]
          exact (h : run f (ops ++ (rest ++ ys)) s = some t)
        obtain ⟨u, g, k, hg, hk, h1, h2⟩ := ih (ops ++ rest) ys s t hA
        exact ⟨u, g + 1, k, by omega, by omega,
          (h1 : run g (ops ++ rest) s = some u), h2⟩
      · have hA : (s.mem.zero).bind (fun z => if z then run f (rest ++ ys) s
            else run f (ops ++ Op.Routine ops true :: (rest ++ ys)) s) = some t := h
        rcases hz : s.mem.zero with _ | z
        · rw [hz] at hA
          exact Option.noConfusion hA
        · rw [hz] at hA
          rcases z with _ | _
          · have hB : run f ((ops ++ Op.Routine ops true :: rest) ++ ys) s = some t := by
              rw [List.append_assoc]
              exact (hA : run f (ops ++ (Op.Routine ops true :: rest ++ ys)) s = some t)
            obtain ⟨u, g, k, hg, hk, h1, h2⟩ := ih (ops ++ Op.Routine ops true :: rest) ys s t hB
            refine ⟨u, g + 1, k, by omega, by omega, ?_, h2⟩
            show (s.mem.zero).bind (fun z => if z then run g rest s
                else run g (ops ++ Op.Routine ops true :: rest) s) = some u
            rw [hz]
            exact (h1 : run g (ops ++ Op.Routine ops true :: rest) s = some u)
          · obtain ⟨u, g, k, hg, hk, h1, h2⟩ :=
              ih rest ys s t (hA : run f (rest ++ ys) s = some t)
            refine ⟨u, g + 1, k, by omega, by omega, ?_, h2⟩
            show (s.mem.zero).bind (fun z => if z then run g rest s
                else run g (ops ++ Op.Routine ops true :: rest) s) = some u
            rw [hz]
            exact (h1 : run g rest s = some u)
    · obtain ⟨u, g, k, hg, hk, h1, h2⟩ :=
        ih rest ys { s with mem := s.mem.seek n } t
          (h : run f (rest ++ ys) { s with mem := s.mem.seek n } = some t)
      exact ⟨u, g + 1, k, by omega, by omega,
        (h1 : run g rest { s with mem := s.mem.seek n } = some u), h2⟩
    · have hA : (s.mem.inc n).bind
          (fun m => run f (rest ++ ys) { s with mem := m }) = some t := h
      rcases hm : s.mem.inc n with _ | m
      · rw [hm] at hA
        exact Option.noConfusion hA
      · rw [hm] at hA
        obtain ⟨u, g, k, hg, hk, h1, h2⟩ :=
          ih rest ys { s with mem := m } t
            (hA : run f (rest ++ ys) { s with mem := m } = some t)
        refine ⟨u, g + 1, k, by omega, by omega, ?_, h2⟩
        show (s.mem.inc n).bind (fun m => run g rest { s with mem := m }) = some u
        rw [hm]
        exact (h1 : run g rest { s with mem := m } = some u)
    · exact Option.noConfusion h
    · have hA : (s.mem.read).bind
          (fun v => run f (rest ++ ys) { s with out := s.out ++ [v] }) = some t := h
      rcases hv : s.mem.read with _ | v
      · rw [hv] at hA
        exact Option.noConfusion hA
      · rw [hv] at hA
        obtain ⟨u, g, k, hg, hk, h1, h2⟩ :=
          ih rest ys { s with out := s.out ++ [v] } t
            (hA : run f (rest ++ ys) { s with out := s.out ++ [v] } = some t)
        refine ⟨u, g + 1, k, by omega, by omega, ?_, h2⟩
        show (s.mem.read).bind (fun v => run g rest { s with out := s.out ++ [v] }) = some u
        rw [hv]
        exact (h1 : run g rest { s with out := s.out ++ [v] } = some u)
    · have hA : (s.mem.set_zero).bind
          (fun m => run f (rest ++ ys) { s with mem := m }) = some t := h
      rcases hm : s.mem.set_zero with _ | m
      · rw [hm] at hA
        exact Option.noConfusion hA
      · rw [hm] at hA
        obtain ⟨u, g, k, hg, hk, h1, h2⟩ :=
          ih rest ys { s with mem := m } t
            (hA : run f (rest ++ ys) { s with mem := m } = some t)
        refine ⟨u, g + 1, k, by omega, by omega, ?_, h2⟩
        show (s.mem.set_zero).bind (fun m => run g rest { s with mem := m }) = some u
        rw [hm]
        exact (h1 : run g rest { s with mem := m } = some u)

theorem run_nil (f : Nat) (s : St) : run f [] s = some s := by
  cases f <;> rfl

theorem routine_ends_zero : ∀ (f : Nat) (ops : List Op) (s t : St),
    run f [Op.Routine ops true] s = some t → t.mem.zero = some true := by
  intro f
  induction f using Nat.strong_induction_on with
  | _ f ih =>
    intro ops s t h
    rcases f with _ | f
    · exact Option.noConfusion h
    have hA : (s.mem.zero).bind (fun z => if z then run f [] s
        else run f (ops ++ [Op.Routine ops true]) s) = some t := h
    rcases hz : s.mem.zero with _ | z
    · rw [hz] at hA
      exact Option.noConfusion hA
    rw [hz] at hA
    rcases z with _ | _
    · have hB : run f (ops ++ [Op.Routine ops true]) s = some t := hA
      obtain ⟨u, g, k, hg, hk, h1, h2⟩ :=
        run_append_some f ops [Op.Routine ops true] s t hB
      exact ih k (by omega) ops u t h2
    · have hB : run f [] s = some t := hA
      rw [run_nil] at hB
      rw [← Option.some.inj hB]
      exact hz

/-- C3: executing `Routine(ops, conditional)`: if conditional and the
current cell is zero on entry, the whole state (memory and output buffer)
is unchanged; a non-conditional routine executes its ops exactly once; if
conditional and the cell is nonzero, the full ops sequence executes in
order followed by the re-queued routine, which repeats the sequence until a
complete pass ends with the current cell zero — in particular any
terminating conditional routine ends with the cell zero, and the run
decomposes into one full pass followed by the routine again. -/
theorem routine_execution (ops : List Op) (f : Nat) (s : St) :
    (s.mem.zero = some true → run (f + 1) [Op.Routine ops true] s = some s) ∧
    (run (f + 1) [Op.Routine ops false] s = run f ops s) ∧
    (s.mem.zero = some false → run (f + 1) [Op.Routine ops true] s =
      run f (ops ++ [Op.Routine ops true]) s) ∧
    (∀ t, run (f + 1) [Op.Routine ops true] s = some t → t.mem.zero = some true) ∧
    (∀ t, s.mem.zero = some false → run (f + 1) [Op.Routine ops true] s = some t →
      ∃ u g k, run g ops s = some u ∧ run k [Op.Routine ops true] u = some t) := by
  refine ⟨?_, ?_, ?_, ?_, ?_⟩
  · intro hz
    show (s.mem.zero).bind (fun z => if z then run f [] s
        else run f (ops ++ [Op.Routine ops true]) s) = some s
    rw [hz]
    exact run_nil f s
  · show run f (ops ++ []) s = run f ops s
    rw [List.append_nil]
  · intro hz
    show (s.mem.zero).bind (fun z => if z then run f [] s
        else run f (ops ++ [Op.Routine ops true]) s) =
      run f (ops ++ [Op.Routine ops true]) s
    rw [hz]
    exact rfl
  · intro t h
    exact routine_ends_zero (f + 1) ops s t h
  · intro t hz h
    have hA : (s.mem.zero).bind (fun z => if z then run f [] s
        else run f (ops ++ [Op.Routine ops true]) s) = some t := h
    rw [hz] at hA
    obtain ⟨u, g, k, hg, hk, h1, h2⟩ :=
      run_append_some f ops [Op.Routine ops true] s t
        (hA : run f (ops ++ [Op.Routine ops true]) s = some t)
    exact ⟨u, g, k, h1, h2⟩

/-- Witness for `routine_execution` at a concrete routine and state. -/
theorem routine_execution_witness :
    (stNew.mem.zero = some true → run 4 [Op.Routine [Op.Inc 1] true] stNew = some stNew) ∧
    (run 4 [Op.Routine [Op.Inc 1] false] stNew = run 3 [Op.Inc 1] stNew) ∧
    (stNew.mem.zero = some false → run 4 [Op.Routine [Op.Inc 1] true] stNew =
      run 3 ([Op.Inc 1] ++ [Op.Routine [Op.Inc 1] true]) stNew) ∧
    (∀ t, run 4 [Op.Routine [Op.Inc 1] true] stNew = some t → t.mem.zero = some true) ∧
    (∀ t, stNew.mem.zero = some false →
      run 4 [Op.Routine [Op.Inc 1] true] stNew = some t →
      ∃ u g k, run g [Op.Inc 1] stNew = some u ∧
        run k [Op.Routine [Op.Inc 1] true] u = some t) :=
  routine_execution [Op.Inc 1] 3 stNew

theorem interpret_vec_nil (f : Nat) (ws : Option Op) (acc : List Op) :
    interpret_vec f [] ws acc = (commitOps ws acc, []) := by
  cases f <;> rfl

theorem interpret_vec_rest_length : ∀ (f : Nat) (bs : List Nat) (ws : Option Op)
    (acc : List Op), (interpret_vec f bs ws acc).2.length ≤ bs.length := by
  intro f
  induction f with
  | zero =>
    intro bs ws acc
    exact le_rfl
  | succ f ih =>
    intro bs ws acc
    rcases bs with _ | ⟨b, rest⟩
    · exact Nat.le_refl 0
    simp only [interpret_vec]
    split_ifs with h1 h2 h3 h4 h5 h6 h7 h8
    · exact le_trans (ih rest _ _) (Nat.le_succ _)
    · exact le_trans (ih rest _ _) (Nat.le_succ _)
    · exact le_trans (ih rest _ _) (Nat.le_succ _)
    · exact le_trans (ih rest _ _) (Nat.le_succ _)
    · exact le_trans (ih rest _ _) (Nat.le_succ _)
    · exact le_trans (ih rest _ _) (Nat.le_succ _)
    · exact le_trans (ih _ _ _) (le_trans (ih rest _ _) (Nat.le_succ _))
    · exact Nat.le_succ _
    · exact le_trans (ih rest _ _) (Nat.le_succ _)

theorem interpret_vec_fuel : ∀ (f : Nat) (bs : List Nat) (ws : Option Op)
    (acc : List Op), bs.length ≤ f →
    interpret_vec (f + 1) bs ws acc = interpret_vec f bs ws acc := by
  intro f
  induction f with
  | zero =>
    intro bs ws acc hlen
    have hb : bs = [] := List.eq_nil_of_length_eq_zero (Nat.le_zero.mp hlen)
    subst hb
    rfl
  | succ f ih =>
    intro bs ws acc hlen
    rcases bs with _ | ⟨b, rest⟩
    · rfl
    have hr : rest.length ≤ f := by
      simp only [List.length_cons] at hlen
      omega
    simp only [interpret_vec]
    split_ifs with h1 h2 h3 h4 h5 h6 h7 h8
    · exact ih rest _ _ hr
    · exact ih rest _ _ hr
    · exact ih rest _ _ hr
    · exact ih rest _ _ hr
    · exact ih rest _ _ hr
    · exact ih rest _ _ hr
    · rw [ih rest none [] hr]
      exact ih _ none _ (le_trans (interpret_vec_rest_length f rest none []) hr)
    · rfl
    · exact ih rest _ _ hr

theorem interpret_vec_fuel_le : ∀ (g f : Nat), f ≤ g → ∀ (bs : List Nat)
    (ws : Option Op) (acc : List Op), bs.length ≤ f →
    interpret_vec g bs ws acc = interpret_vec f bs ws acc := by
  intro g
  induction g with
  | zero =>
    intro f hf bs ws acc hlen
    rw [Nat.le_zero.mp hf]
  | succ g ih =>
    intro f hf bs ws acc hlen
    rcases Nat.eq_or_lt_of_le hf with heq | hlt
    · rw [heq]
    · rw [interpret_vec_fuel g bs ws acc (le_trans hlen (by omega))]
      exact ih f (by omega) bs ws acc hlen

theorem interpret_vec_filter : ∀ (n : Nat) (bs : List Nat), bs.length ≤ n →
    ∀ (f : Nat) (ws : Option Op) (acc : List Op), bs.length ≤ f →
    interpret_vec f (bs.filter isCmd) ws acc =
      ((interpret_vec f bs ws acc).1, (interpret_vec f bs ws acc).2.filter isCmd) := by
  intro n
  induction n with
  | zero =>
    intro bs hn f ws acc hf
    have hb : bs = [] := List.eq_nil_of_length_eq_zero (Nat.le_zero.mp hn)
    subst hb
    simp [interpret_vec_nil]
  | succ n ih =>
    intro bs hn f ws acc hf
    rcases bs with _ | ⟨b, rest⟩
    · simp [interpret_vec_nil]
    rcases f with _ | f
    · simp at hf
    have hrn : rest.length ≤ n := by
      simp only [List.length_cons] at hn
      omega
    have hrf : rest.length ≤ f := by
      simp only [List.length_cons] at hf
      omega
    by_cases hcmd : isCmd b = true
    · simp only [isCmd, Bool.or_eq_true, decide_eq_true_eq] at hcmd
      rcases hcmd with ((((((rfl | rfl) | rfl) | rfl) | rfl) | rfl) | rfl) | rfl
      · have e1 : (62 :: rest).filter isCmd = 62 :: rest.filter isCmd := rfl
        have e2 : ∀ (L : List Nat), interpret_vec (f + 1) (62 :: L) ws acc =
            interpret_vec f L (process_workspace_seek ws acc 1).1
              (process_workspace_seek ws acc 1).2 := fun _ => rfl
        rw [e1, e2, e2]
        exact ih rest hrn f _ _ hrf
      · have e1 : (60 :: rest).filter isCmd = 60 :: rest.filter isCmd := rfl
        have e2 : ∀ (L : List Nat), interpret_vec (f + 1) (60 :: L) ws acc =
            interpret_vec f L (process_workspace_seek ws acc (-1)).1
              (process_workspace_seek ws acc (-1)).2 := fun _ => rfl
        rw [e1, e2, e2]
        exact ih rest hrn f _ _ hrf
      · have e1 : (43 :: rest).filter isCmd = 43 :: rest.filter isCmd := rfl
        have e2 : ∀ (L : List Nat), interpret_vec (f + 1) (43 :: L) ws acc =
            interpret_vec f L (process_workspace_inc ws acc 1).1
              (process_workspace_inc ws acc 1).2 := fun _ => rfl
        rw [e1, e2, e2]
        exact ih rest hrn f _ _ hrf
      · have e1 : (45 :: rest).filter isCmd = 45 :: rest.filter isCmd := rfl
        have e2 : ∀ (L : List Nat), interpret_vec (f + 1) (45 :: L) ws acc =
            interpret_vec f L (process_workspace_inc ws acc (-1)).1
              (process_workspace_inc ws acc (-1)).2 := fun _ => rfl
        rw [e1, e2, e2]
        exact ih rest hrn f _ _ hrf
      · have e1 : (46 :: rest).filter isCmd = 46 :: rest.filter isCmd := rfl
        have e2 : ∀ (L : List Nat), interpret_vec (f + 1) (46 :: L) ws acc =
            interpret_vec f L none (commitOps ws acc ++ [Op.Output]) := fun _ => rfl
        rw [e1, e2, e2]
        exact ih rest hrn f _ _ hrf
      · have e1 : (44 :: rest).filter isCmd = 44 :: rest.filter isCmd := rfl
        have e2 : ∀ (L : List Nat), interpret_vec (f + 1) (44 :: L) ws acc =
            interpret_vec f L none (commitOps ws acc ++ [Op.Input]) := fun _ => rfl
        rw [e1, e2, e2]
        exact ih rest hrn f _ _ hrf
      · have e1 : (91 :: rest).filter isCmd = 91 :: rest.filter isCmd := rfl
        have e2 : ∀ (L : List Nat), interpret_vec (f + 1) (91 :: L) ws acc =
            interpret_vec f (interpret_vec f L none []).2 none
              (commitOps ws acc ++
                [interpret_routine_result (interpret_vec f L none []).1 true]) :=
          fun _ => rfl
        rw [e1, e2, e2, ih rest hrn f none [] hrf]
        exact ih (interpret_vec f rest none []).2
          (le_trans (interpret_vec_rest_length f rest none []) hrn) f none _
          (le_trans (interpret_vec_rest_length f rest none []) hrf)
      · have e1 : (93 :: rest).filter isCmd = 93 :: rest.filter isCmd := rfl
        rw [e1]
        rfl
    · simp only [isCmd, Bool.or_eq_true, decide_eq_true_eq, not_or] at hcmd
      obtain ⟨⟨⟨⟨⟨⟨⟨n1, n2⟩, n3⟩, n4⟩, n5⟩, n6⟩, n7⟩, n8⟩ := hcmd
      have hbf : isCmd b = false := by
        simp [isCmd, n1, n2, n3, n4, n5, n6, n7, n8]
      have e1 : (b :: rest).filter isCmd = rest.filter isCmd := by
        simp [List.filter_cons, hbf]
      have e2 : interpret_vec (f + 1) (b :: rest) ws acc =
          interpret_vec f rest ws acc := by
        simp only [interpret_vec, if_neg n1, if_neg n2, if_neg n3, if_neg n4,
          if_neg n5, if_neg n6, if_neg n7, if_neg n8]
      rw [e1, e2]
      rw [interpret_vec_fuel f (rest.filter isCmd) ws acc
        (le_trans (List.length_filter_le _ _) hrf)]
      exact ih rest hrn f ws acc hrf

theorem interpret_vec_append_close : ∀ (n : Nat) (bs : List Nat), bs.length ≤ n →
    ∀ (f : Nat) (ws : Option Op) (acc : List Op), bs.length + 1 ≤ f →
    (interpret_vec f (bs ++ [93]) ws acc =
        ((interpret_vec f bs ws acc).1, (interpret_vec f bs ws acc).2 ++ [93]) ∨
      (interpret_vec f (bs ++ [93]) ws acc =
          ((interpret_vec f bs ws acc).1, []) ∧
        (interpret_vec f bs ws acc).2 = [])) := by
  intro n
  induction n with
  | zero =>
    intro bs hn f ws acc hf
    have hb : bs = [] := List.eq_nil_of_length_eq_zero (Nat.le_zero.mp hn)
    subst hb
    rcases f with _ | f
    · omega
    right
    refine ⟨?_, by simp [interpret_vec_nil]⟩
    simp [interpret_vec_nil]
    rfl
  | succ n ih =>
    intro bs hn f ws acc hf
    rcases bs with _ | ⟨b, rest⟩
    · rcases f with _ | f
      · omega
      right
      refine ⟨?_, by simp [interpret_vec_nil]⟩
      simp [interpret_vec_nil]
      rfl
    rcases f with _ | f
    · omega
    have hrn : rest.length ≤ n := by
      simp only [List.length_cons] at hn
      omega
    have hrf : rest.length + 1 ≤ f := by
      simp only [List.length_cons] at hf
      omega
    by_cases hcmd : isCmd b = true
    · simp only [isCmd, Bool.or_eq_true, decide_eq_true_eq] at hcmd
      rcases hcmd with ((((((rfl | rfl) | rfl) | rfl) | rfl) | rfl) | rfl) | rfl
      · have e2 : ∀ (L : List Nat), interpret_vec (f + 1) (62 :: L) ws acc =
            interpret_vec f L (process_workspace_seek ws acc 1).1
              (process_workspace_seek ws acc 1).2 := fun _ => rfl
        rw [show (62 :: rest) ++ [93] = 62 :: (rest ++ [93]) from rfl, e2, e2]
        exact ih rest hrn f _ _ hrf
      · have e2 : ∀ (L : List Nat), interpret_vec (f + 1) (60 :: L) ws acc =
            interpret_vec f L (process_workspace_seek ws acc (-1)).1
              (process_workspace_seek ws acc (-1)).2 := fun _ => rfl
        rw [show (60 :: rest) ++ [93] = 60 :: (rest ++ [93]) from rfl, e2, e2]
        exact ih rest hrn f _ _ hrf
      · have e2 : ∀ (L : List Nat), interpret_vec (f + 1) (43 :: L) ws acc =
            interpret_vec f L (process_workspace_inc ws acc 1).1
              (process_workspace_inc ws acc 1).2 := fun _ => rfl
        rw [show (43 :: rest) ++ [93] = 43 :: (rest ++ [93]) from rfl, e2, e2]
        exact ih rest hrn f _ _ hrf
      · have e2 : ∀ (L : List Nat), interpret_vec (f + 1) (45 :: L) ws acc =
            interpret_vec f L (process_workspace_inc ws acc (-1)).1
              (process_workspace_inc ws acc (-1)).2 := fun _ => rfl
        rw [show (45 :: rest) ++ [93] = 45 :: (rest ++ [93]) from rfl, e2, e2]
        exact ih rest hrn f _ _ hrf
      · have e2 : ∀ (L : List Nat), interpret_vec (f + 1) (46 :: L) ws acc =
            interpret_vec f L none (commitOps ws acc ++ [Op.Output]) := fun _ => rfl
        rw [show (46 :: rest) ++ [93] = 46 :: (rest ++ [93]) from rfl, e2, e2]
        exact ih rest hrn f _ _ hrf
      · have e2 : ∀ (L : List Nat), interpret_vec (f + 1) (44 :: L) ws acc =
            interpret_vec f L none (commitOps ws acc ++ [Op.Input]) := fun _ => rfl
        rw [show (44 :: rest) ++ [93] = 44 :: (rest ++ [93]) from rfl, e2, e2]
        exact ih rest hrn f _ _ hrf
      · -- '[' : the appended close may be consumed by the nested routine
        have e2 : ∀ (L : List Nat), interpret_vec (f + 1) (91 :: L) ws acc =
            interpret_vec f (interpret_vec f L none []).2 none
              (commitOps ws acc ++
                [interpret_routine_result (interpret_vec f L none []).1 true]) :=
          fun _ => rfl
        rw [show (91 :: rest) ++ [93] = 91 :: (rest ++ [93]) from rfl, e2, e2]
        have hrf' : rest.length ≤ f := by omega
        rcases ih rest hrn f none [] hrf with hin | ⟨hin, hin2⟩
        · rw [hin]
          have hlen2 : (interpret_vec f rest none []).2.length ≤ n :=
            le_trans (interpret_vec_rest_length f rest none []) hrn
          have hlenf : (interpret_vec f rest none []).2.length + 1 ≤ f :=
            Nat.succ_le_of_lt (Nat.lt_of_le_of_lt
              (interpret_vec_rest_length f rest none []) (by omega))
          exact ih (interpret_vec f rest none []).2 hlen2 f none _ hlenf
        · rw [hin, hin2]
          right
          refine ⟨?_, by simp [interpret_vec_nil]⟩
          simp [interpret_vec_nil]
      · -- ']' : the original stream already closes here
        left
        rw [show (93 :: rest) ++ [93] = 93 :: (rest ++ [93]) from rfl]
        rfl
    · simp only [isCmd, Bool.or_eq_true, decide_eq_true_eq, not_or] at hcmd
      obtain ⟨⟨⟨⟨⟨⟨⟨n1, n2⟩, n3⟩, n4⟩, n5⟩, n6⟩, n7⟩, n8⟩ := hcmd
      have e2 : ∀ (L : List Nat), interpret_vec (f + 1) (b :: L) ws acc =
          interpret_vec f L ws acc := by
        intro L
        simp only [interpret_vec, if_neg n1, if_neg n2, if_neg n3, if_neg n4,
          if_neg n5, if_neg n6, if_neg n7, if_neg n8]
      rw [show (b :: rest) ++ [93] = b :: (rest ++ [93]) from rfl, e2, e2]
      exact ih rest hrn f ws acc hrf

/-- C9: the translator is total and permissive: appending a loop-close byte
to any program leaves the produced Op tree unchanged (end of stream inside a
loop body already acts as an implicit loop-close, committing the pending
workspace and returning the accumulated sequence), and unrecognized source
bytes are comments — filtering them out of the program leaves the produced
Op tree identical. -/
theorem translator_permissive (prog : List Nat) :
    interpret (prog ++ [93]) = interpret prog ∧
    interpret (prog.filter isCmd) = interpret prog := by
  constructor
  · unfold interpret
    have hlen : (prog ++ [93]).length = prog.length + 1 := by simp
    rw [hlen]
    have hfe : interpret_vec (prog.length + 1) prog none [] =
        interpret_vec prog.length prog none [] :=
      interpret_vec_fuel prog.length prog none [] le_rfl
    rcases interpret_vec_append_close prog.length prog le_rfl (prog.length + 1)
        none [] (by omega) with h1 | ⟨h1, _⟩
    · rw [h1, hfe]
    · rw [h1, hfe]
  · unfold interpret
    have hfl : (prog.filter isCmd).length ≤ prog.length :=
      List.length_filter_le _ _
    rw [show interpret_vec (prog.filter isCmd).length (prog.filter isCmd) none [] =
        interpret_vec prog.length (prog.filter isCmd) none [] from
      (interpret_vec_fuel_le prog.length (prog.filter isCmd).length hfl
        (prog.filter isCmd) none [] le_rfl).symm]
    rw [interpret_vec_filter prog.length prog le_rfl prog.length none [] le_rfl]

theorem option_bind_assoc {α β γ : Type} (x : Option α) (f : α → Option β)
    (g : β → Option γ) :
    (x.bind f).bind g = x.bind (fun a => (f a).bind g) := by
  cases x <;> rfl

theorem commitOps_eq (ws : Option Op) (acc : List Op) :
    commitOps ws acc = acc ++ wsList ws := by
  cases ws <;> simp [commitOps, wsList]

theorem seek_seek (m : Memory) (a b : Int) :
    (m.seek a).seek b = m.seek (a + b) := by
  simp only [Memory.seek, USIZE]
  congr 1
  have h : ((2 : Nat) ^ 64 : Int) = 18446744073709551616 := by norm_num
  have h2 : (2 : Nat) ^ 64 = 18446744073709551616 := by norm_num
  rw [h2]
  push_cast
  omega

theorem inc_inc (m : Memory) (a b : Int) :
    (m.inc a).bind (fun m1 => m1.inc b) = m.inc (a + b) := by
  by_cases hp : m.pointer < MEM_SIZE
  · have e1 : (m.inc a).bind (fun m1 => m1.inc b) = Memory.inc { m with data := fun i => if i = m.pointer then (m.data m.pointer + (a % (256 : Int)).toNat) % 256 else m.data i } b := by
      rw [Memory.inc, if_pos hp]
      rfl
    rw [e1, Memory.inc, Memory.inc, if_pos hp, if_pos hp]
    congr 1
    congr 1
    funext i
    by_cases hi : i = m.pointer
    · subst hi
      simp
      omega
    · simp [hi]
  · rw [Memory.inc, Memory.inc, if_neg hp, if_neg hp]
    rfl

theorem execSI_nil (m : Memory) : execSI [] m = some m := rfl

theorem execSI_seek (x : Int) (m : Memory) : execSI [Op.Seek x] m = some (m.seek x) := rfl

theorem execSI_inc (x : Int) (m : Memory) : execSI [Op.Inc x] m = m.inc x := by
  show (m.inc x).bind (fun m1 => execSI [] m1) = m.inc x
  cases m.inc x <;> rfl

theorem execSI_append : ∀ (xs ys : List Op) (m : Memory),
    execSI (xs ++ ys) m = (execSI xs m).bind (fun m1 => execSI ys m1) := by
  intro xs
  induction xs with
  | nil => intro ys m; rfl
  | cons op rest ih =>
    intro ys m
    rcases op with _ | n | n | _ | _ | _
    · rfl
    · exact ih ys (m.seek n)
    · have e : execSI ((Op.Inc n :: rest) ++ ys) m =
          (m.inc n).bind (fun m1 => execSI (rest ++ ys) m1) := rfl
      have e2 : execSI (Op.Inc n :: rest) m =
          (m.inc n).bind (fun m1 => execSI rest m1) := rfl
      rw [e, e2, option_bind_assoc]
      exact congrArg (Option.bind (m.inc n)) (funext fun m1 => ih ys m1)
    · rfl
    · rfl
    · rfl

theorem option_map_bind {α β γ : Type} (x : Option α) (g : α → Option β) (F : β → γ) :
    (x.bind g).map F = x.bind (fun a => (g a).map F) := by
  cases x <;> rfl

theorem bind_some_bind {α β : Type} (x : Option α) (g : α → Option β) :
    (x.bind (fun y => some y)).bind g = x.bind g := by
  cases x <;> rfl

theorem run_SI : ∀ (l : List Op), l.all isSIOp = true →
    ∀ (f : Nat), l.length + 1 ≤ f → ∀ (s : St),
    run f l s = (execSI l s.mem).map (fun m => ⟨m, s.out⟩) := by
  intro l
  induction l with
  | nil =>
    intro _ f _ s
    rw [run_nil]
    rfl
  | cons op rest ih =>
    intro hall f hf s
    have hop : isSIOp op = true := by
      simp only [List.all_cons, Bool.and_eq_true] at hall
      exact hall.1
    have hrest : rest.all isSIOp = true := by
      simp only [List.all_cons, Bool.and_eq_true] at hall
      exact hall.2
    rcases f with _ | f
    · omega
    have hf' : rest.length + 1 ≤ f := by
      simp only [List.length_cons] at hf
      omega
    rcases op with _ | n | n | _ | _ | _
    · simp [isSIOp] at hop
    · have e : run (f + 1) (Op.Seek n :: rest) s =
          run f rest { s with mem := s.mem.seek n } := rfl
      rw [e, ih hrest f hf' ⟨s.mem.seek n, s.out⟩]
      rfl
    · have e : run (f + 1) (Op.Inc n :: rest) s =
          (s.mem.inc n).bind (fun m => run f rest { s with mem := m }) := rfl
      have e2 : execSI (Op.Inc n :: rest) s.mem =
          (s.mem.inc n).bind (fun m => execSI rest m) := rfl
      rw [e, e2, option_map_bind]
      exact congrArg (Option.bind (s.mem.inc n))
        (funext fun m => ih hrest f hf' ⟨m, s.out⟩)
    · simp [isSIOp] at hop
    · simp [isSIOp] at hop
    · simp [isSIOp] at hop

theorem some_bind {α β : Type} (a : α) (f : α → Option β) :
    (some a).bind f = f a := rfl

theorem interpret_vec_SI : ∀ (bs : List Nat), bs.all isSIByte = true →
    ∀ (f : Nat) (ws : Option Op) (acc : List Op), bs.length ≤ f →
    (wsList ws).all isSIOp = true → acc.all isSIOp = true →
    (interpret_vec f bs ws acc).2 = [] ∧
    (interpret_vec f bs ws acc).1.all isSIOp = true ∧
    (interpret_vec f bs ws acc).1.length ≤
      acc.length + (wsList ws).length + bs.length ∧
    ∀ m : Memory, execSI (interpret_vec f bs ws acc).1 m =
      (execSI acc m).bind (fun m1 => (execSI (wsList ws) m1).bind
        (fun m2 => naiveRun bs m2)) := by
  intro bs
  induction bs with
  | nil =>
    intro _ f ws acc _ hws hacc
    rw [interpret_vec_nil, commitOps_eq]
    refine ⟨rfl, ?_, ?_, ?_⟩
    · simp [List.all_append, hacc, hws]
    · simp
    · intro m
      rw [execSI_append]
      apply congrArg
      funext m1
      cases execSI (wsList ws) m1 <;> rfl
  | cons b rest ih =>
    intro hall f ws acc hf hws hacc
    have hb : isSIByte b = true := by
      simp only [List.all_cons, Bool.and_eq_true] at hall
      exact hall.1
    have hrest : rest.all isSIByte = true := by
      simp only [List.all_cons, Bool.and_eq_true] at hall
      exact hall.2
    rcases f with _ | f
    · simp at hf
    have hf' : rest.length ≤ f := by
      simp only [List.length_cons] at hf
      omega
    simp only [isSIByte, Bool.or_eq_true, decide_eq_true_eq] at hb
    rcases hb with ((rfl | rfl) | rfl) | rfl
    · -- b = 62 : seek right
      rcases ws with _ | op
      · rw [show interpret_vec (f + 1) (62 :: rest) none acc =
            interpret_vec f rest (some (Op.Seek 1)) (commitOps none acc) from rfl]
        obtain ⟨h1, h2, h3, h4⟩ := ih hrest f (some (Op.Seek 1)) (commitOps none acc)
          hf' (by decide) hacc
        refine ⟨h1, h2, ?_, ?_⟩
        · simp only [wsList, commitOps] at h3 ⊢
          simp at h3 ⊢
          omega
        · intro m
          rw [h4 m]
          apply congrArg
          funext m1
          rfl
      · rcases op with _ | a | a | _ | _ | _
        · simp [wsList, isSIOp] at hws
        · -- coalesce into Seek (a + 1)
          rw [show interpret_vec (f + 1) (62 :: rest) (some (Op.Seek a)) acc =
              interpret_vec f rest (some (Op.Seek (a + 1))) acc from rfl]
          obtain ⟨h1, h2, h3, h4⟩ := ih hrest f (some (Op.Seek (a + 1))) acc
            hf' (by simp [wsList, isSIOp]) hacc
          refine ⟨h1, h2, ?_, ?_⟩
          · simp only [wsList] at h3 ⊢
            simp at h3 ⊢
            omega
          · intro m
            rw [h4 m]
            apply congrArg
            funext m1
            show naiveRun rest (m1.seek (a + 1)) = naiveRun rest ((m1.seek a).seek 1)
            rw [seek_seek]
        · -- commit the pending Inc, fresh Seek 1
          rw [show interpret_vec (f + 1) (62 :: rest) (some (Op.Inc a)) acc =
              interpret_vec f rest (some (Op.Seek 1))
                (commitOps (some (Op.Inc a)) acc) from rfl]
          obtain ⟨h1, h2, h3, h4⟩ := ih hrest f (some (Op.Seek 1))
            (commitOps (some (Op.Inc a)) acc) hf' (by decide)
            (by simp [commitOps_eq, List.all_append, hacc, wsList, isSIOp])
          refine ⟨h1, h2, ?_, ?_⟩
          · simp only [commitOps_eq, wsList] at h3 ⊢
            simp at h3 ⊢
            omega
          · intro m
            rw [h4 m, commitOps_eq, execSI_append, option_bind_assoc]
            apply congrArg
            funext m1
            apply congrArg
            funext m2
            rfl
        · simp [wsList, isSIOp] at hws
        · simp [wsList, isSIOp] at hws
        · simp [wsList, isSIOp] at hws
    · -- b = 60 : seek left
      rcases ws with _ | op
      · rw [show interpret_vec (f + 1) (60 :: rest) none acc =
            interpret_vec f rest (some (Op.Seek (-1))) (commitOps none acc) from rfl]
        obtain ⟨h1, h2, h3, h4⟩ := ih hrest f (some (Op.Seek (-1))) (commitOps none acc)
          hf' (by decide) hacc
        refine ⟨h1, h2, ?_, ?_⟩
        · simp only [wsList, commitOps] at h3 ⊢
          simp at h3 ⊢
          omega
        · intro m
          rw [h4 m]
          simp only [commitOps]
          apply congrArg
          funext m1
          simp only [wsList, execSI_seek, execSI_nil, some_bind]
          simp only [naiveRun]
          norm_num
      · rcases op with _ | a | a | _ | _ | _
        · simp [wsList, isSIOp] at hws
        · rw [show interpret_vec (f + 1) (60 :: rest) (some (Op.Seek a)) acc =
              interpret_vec f rest (some (Op.Seek (a + -1))) acc from rfl]
          obtain ⟨h1, h2, h3, h4⟩ := ih hrest f (some (Op.Seek (a + -1))) acc
            hf' (by simp [wsList, isSIOp]) hacc
          refine ⟨h1, h2, ?_, ?_⟩
          · simp only [wsList] at h3 ⊢
            simp at h3 ⊢
            omega
          · intro m
            rw [h4 m]
            apply congrArg
            funext m1
            show naiveRun rest (m1.seek (a + -1)) = naiveRun rest ((m1.seek a).seek (-1))
            rw [seek_seek]
        · rw [show interpret_vec (f + 1) (60 :: rest) (some (Op.Inc a)) acc =
              interpret_vec f rest (some (Op.Seek (-1)))
                (commitOps (some (Op.Inc a)) acc) from rfl]
          obtain ⟨h1, h2, h3, h4⟩ := ih hrest f (some (Op.Seek (-1)))
            (commitOps (some (Op.Inc a)) acc) hf' (by decide)
            (by simp [commitOps_eq, List.all_append, hacc, wsList, isSIOp])
          refine ⟨h1, h2, ?_, ?_⟩
          · simp only [commitOps_eq, wsList] at h3 ⊢
            simp at h3 ⊢
            omega
          · intro m
            rw [h4 m, commitOps_eq, execSI_append, option_bind_assoc]
            apply congrArg
            funext m1
            apply congrArg
            funext m2
            rfl
        · simp [wsList, isSIOp] at hws
        · simp [wsList, isSIOp] at hws
        · simp [wsList, isSIOp] at hws
    · -- b = 43 : increment
      rcases ws with _ | op
      · rw [show interpret_vec (f + 1) (43 :: rest) none acc =
            interpret_vec f rest (some (Op.Inc 1)) (commitOps none acc) from rfl]
        obtain ⟨h1, h2, h3, h4⟩ := ih hrest f (some (Op.Inc 1)) (commitOps none acc)
          hf' (by decide) hacc
        refine ⟨h1, h2, ?_, ?_⟩
        · simp only [wsList, commitOps] at h3 ⊢
          simp at h3 ⊢
          omega
        · intro m
          rw [h4 m]
          apply congrArg
          funext m1
          show ((m1.inc 1).bind (fun y => some y)).bind (fun m2 => naiveRun rest m2) =
            (m1.inc 1).bind (fun m2 => naiveRun rest m2)
          rw [bind_some_bind]
      · rcases op with _ | a | a | _ | _ | _
        · simp [wsList, isSIOp] at hws
        · rw [show interpret_vec (f + 1) (43 :: rest) (some (Op.Seek a)) acc =
              interpret_vec f rest (some (Op.Inc 1))
                (commitOps (some (Op.Seek a)) acc) from rfl]
          obtain ⟨h1, h2, h3, h4⟩ := ih hrest f (some (Op.Inc 1))
            (commitOps (some (Op.Seek a)) acc) hf' (by decide)
            (by simp [commitOps_eq, List.all_append, hacc, wsList, isSIOp])
          refine ⟨h1, h2, ?_, ?_⟩
          · simp only [commitOps_eq, wsList] at h3 ⊢
            simp at h3 ⊢
            omega
          · intro m
            rw [h4 m, commitOps_eq, execSI_append, option_bind_assoc]
            apply congrArg
            funext m1
            apply congrArg
            funext m2
            show ((m2.inc 1).bind (fun y => some y)).bind
                (fun m3 => naiveRun rest m3) =
              (m2.inc 1).bind (fun m3 => naiveRun rest m3)
            rw [bind_some_bind]
        · -- coalesce into Inc (a + 1)
          rw [show interpret_vec (f + 1) (43 :: rest) (some (Op.Inc a)) acc =
              interpret_vec f rest (some (Op.Inc (a + 1))) acc from rfl]
          obtain ⟨h1, h2, h3, h4⟩ := ih hrest f (some (Op.Inc (a + 1))) acc
            hf' (by simp [wsList, isSIOp]) hacc
          refine ⟨h1, h2, ?_, ?_⟩
          · simp only [wsList] at h3 ⊢
            simp at h3 ⊢
            omega
          · intro m
            rw [h4 m]
            apply congrArg
            funext m1
            show ((m1.inc (a + 1)).bind (fun y => some y)).bind
                (fun m2 => naiveRun rest m2) =
              ((m1.inc a).bind (fun y => some y)).bind
                (fun m2 => (m2.inc 1).bind (fun m3 => naiveRun rest m3))
            rw [bind_some_bind, bind_some_bind, ← inc_inc m1 a 1, option_bind_assoc]
        · simp [wsList, isSIOp] at hws
        · simp [wsList, isSIOp] at hws
        · simp [wsList, isSIOp] at hws
    · -- b = 45 : decrement
      rcases ws with _ | op
      · rw [show interpret_vec (f + 1) (45 :: rest) none acc =
            interpret_vec f rest (some (Op.Inc (-1))) (commitOps none acc) from rfl]
        obtain ⟨h1, h2, h3, h4⟩ := ih hrest f (some (Op.Inc (-1))) (commitOps none acc)
          hf' (by decide) hacc
        refine ⟨h1, h2, ?_, ?_⟩
        · simp only [wsList, commitOps] at h3 ⊢
          simp at h3 ⊢
          omega
        · intro m
          rw [h4 m]
          apply congrArg
          funext m1
          show ((m1.inc (-1)).bind (fun y => some y)).bind (fun m2 => naiveRun rest m2) =
            (m1.inc (-1)).bind (fun m2 => naiveRun rest m2)
          rw [bind_some_bind]
      · rcases op with _ | a | a | _ | _ | _
        · simp [wsList, isSIOp] at hws
        · rw [show interpret_vec (f + 1) (45 :: rest) (some (Op.Seek a)) acc =
              interpret_vec f rest (some (Op.Inc (-1)))
                (commitOps (some (Op.Seek a)) acc) from rfl]
          obtain ⟨h1, h2, h3, h4⟩ := ih hrest f (some (Op.Inc (-1)))
            (commitOps (some (Op.Seek a)) acc) hf' (by decide)
            (by simp [commitOps_eq, List.all_append, hacc, wsList, isSIOp])
          refine ⟨h1, h2, ?_, ?_⟩
          · simp only [commitOps_eq, wsList] at h3 ⊢
            simp at h3 ⊢
            omega
          · intro m
            rw [h4 m, commitOps_eq, execSI_append, option_bind_assoc]
            apply congrArg
            funext m1
            apply congrArg
            funext m2
            show ((m2.inc (-1)).bind (fun y => some y)).bind
                (fun m3 => naiveRun rest m3) =
              (m2.inc (-1)).bind (fun m3 => naiveRun rest m3)
            rw [bind_some_bind]
        · rw [show interpret_vec (f + 1) (45 :: rest) (some (Op.Inc a)) acc =
              interpret_vec f rest (some (Op.Inc (a + -1))) acc from rfl]
          obtain ⟨h1, h2, h3, h4⟩ := ih hrest f (some (Op.Inc (a + -1))) acc
            hf' (by simp [wsList, isSIOp]) hacc
          refine ⟨h1, h2, ?_, ?_⟩
          · simp only [wsList] at h3 ⊢
            simp at h3 ⊢
            omega
          · intro m
            rw [h4 m]
            apply congrArg
            funext m1
            show ((m1.inc (a + -1)).bind (fun y => some y)).bind
                (fun m2 => naiveRun rest m2) =
              ((m1.inc a).bind (fun y => some y)).bind
                (fun m2 => (m2.inc (-1)).bind (fun m3 => naiveRun rest m3))
            rw [bind_some_bind, bind_some_bind, ← inc_inc m1 a (-1), option_bind_assoc]
        · simp [wsList, isSIOp] at hws
        · simp [wsList, isSIOp] at hws
        · simp [wsList, isSIOp] at hws

/-- C4: for every program made only of seek and increment tokens (no loops),
executing the coalesced Op tree produced by the translator is bit-exact
equal — tape, cursor and output — to naive one-token-at-a-time execution of
the same program on the same memory. -/
theorem coalesce_refines_naive (prog : List Nat) (hsi : prog.all isSIByte = true)
    (f : Nat) (hf : prog.length + 2 ≤ f) (s : St) :
    run f [interpret prog] s = (naiveRun prog s.mem).map (fun m => ⟨m, s.out⟩) := by
  obtain ⟨h1, h2, h3, h4⟩ := interpret_vec_SI prog hsi prog.length none []
    le_rfl (by decide) (by decide)
  have hop : interpret prog =
      Op.Routine (interpret_vec prog.length prog none []).1 false := rfl
  rcases f with _ | f
  · omega
  rw [hop]
  have e : run (f + 1) [Op.Routine (interpret_vec prog.length prog none []).1 false] s =
      run f ((interpret_vec prog.length prog none []).1 ++ []) s := rfl
  rw [e, List.append_nil]
  have hlen : (interpret_vec prog.length prog none []).1.length + 1 ≤ f := by
    simp only [wsList, List.length_nil] at h3
    omega
  rw [run_SI _ h2 f hlen s]
  rw [h4 s.mem]
  rfl

/-- Witness for `coalesce_refines_naive` on the program `">+"`. -/
theorem coalesce_refines_naive_witness :
    run 10 [interpret [62, 43]] stNew =
      (naiveRun [62, 43] stNew.mem).map (fun m => ⟨m, stNew.out⟩) :=
  coalesce_refines_naive [62, 43] (by decide) 10 (by decide) stNew
